import Mathlib

/-!
Shallow embedding of the NSE institutional-accumulation analyzer
(src/app/api/analyze/route.ts) and proofs of the spec's claims about it.

Modelling conventions:
- JS numbers carrying quantities, prices and values are modelled as ℚ.
- Calendar dates are modelled as integers (day numbers); one JS
  `setDate(getDate() - 1)` step is `d - 1`, and `getDay()` is `d % 7`
  with the convention that day 0 is a Sunday (so `d % 7 = 0` is Sunday
  and `d % 7 = 6` is Saturday, matching JS weekday codes 0 and 6).
- JS strings are Lean `String`s; the JS library functions used by the
  source (`trim`, `toUpperCase`, `includes`, `split('\n')`,
  `replace(/,/g,'')`, `parseFloat`) are embedded as the executable
  character-list functions below.
- The HTTP fetch of `downloadBhavCopy` is modelled by a `FetchOutcome`
  value (network failure, non-ok status, or a body), and the exception
  that the orchestrator's try/catch absorbs is modelled by letting the
  per-day fetch return `Except String (List Deal)`.
-/

/-- Model of JS `String.prototype.trim` on a character list: drop
whitespace from both ends. -/
def trimChars (cs : List Char) : List Char :=
  ((cs.dropWhile Char.isWhitespace).reverse.dropWhile Char.isWhitespace).reverse

/-- Model of JS `s.trim()`. -/
def trimString (s : String) : String := String.mk (trimChars s.data)

/-- Model of JS `s.toUpperCase()` (the source only feeds it ASCII names
and deal-type codes). -/
def toUpperString (s : String) : String := String.mk (s.data.map Char.toUpper)

/-- Does `hay` start with `needle`? Helper for the substring test. -/
def startsSeq : List Char → List Char → Bool
  | [], _ => true
  | _ :: _, [] => false
  | a :: as, b :: bs => (a == b) && startsSeq as bs

/-- Model of JS `hay.includes(needle)`: `needle` occurs as a contiguous
substring of `hay`. -/
def containsSeq (needle : List Char) : List Char → Bool
  | [] => needle.isEmpty
  | c :: cs => startsSeq needle (c :: cs) || containsSeq needle cs

/-- Model of JS `csvText.split('\n')`. -/
def splitNl : List Char → List (List Char)
  | [] => [[]]
  | c :: cs =>
    if c = '\n' then [] :: splitNl cs
    else
      match splitNl cs with
      | [] => [[c]]
      | p :: ps => (c :: p) :: ps

/-- Model of JS `s.replace(/,/g, '')`: strip thousands separators. -/
def stripCommas (s : String) : String := String.mk (s.data.filter (fun c => c ≠ ','))

/-- Numeric value of a run of decimal digits. -/
def digitsVal (cs : List Char) : ℕ := cs.foldl (fun n c => 10 * n + (c.toNat - 48)) 0

/-- Character-level part of the JS `parseFloat` model: skip leading
whitespace, read an optional sign, integer digits, and optional
fractional digits after a dot; trailing junk is ignored; `none` models
NaN (no digits at all). Returns the sign flag and the two digit runs. -/
def jsParseFloatCore (s : String) : Option (Bool × List Char × List Char) :=
  let cs := s.data.dropWhile Char.isWhitespace
  let signSplit : Bool × List Char :=
    match cs with
    | '-' :: r => (true, r)
    | '+' :: r => (false, r)
    | _ => (false, cs)
  let intPart := signSplit.2.takeWhile Char.isDigit
  let rest := signSplit.2.dropWhile Char.isDigit
  let fracPart : List Char :=
    match rest with
    | '.' :: r => r.takeWhile Char.isDigit
    | _ => []
  if intPart.isEmpty && fracPart.isEmpty then none
  else some (signSplit.1, intPart, fracPart)

/-- Model of JS `parseFloat`: the numeric value of the parsed digit runs.
Exponent notation, which never appears in the exchange's quantity and
price columns, is not modelled. -/
def jsParseFloat (s : String) : Option ℚ :=
  (jsParseFloatCore s).map (fun t =>
    if t.1 then -((digitsVal t.2.1 : ℚ) + (digitsVal t.2.2 : ℚ) / (10 : ℚ) ^ t.2.2.length)
    else (digitsVal t.2.1 : ℚ) + (digitsVal t.2.2 : ℚ) / (10 : ℚ) ^ t.2.2.length)

/-- The keyword list `INSTITUTIONAL_KEYWORDS` of the source. -/
def INSTITUTIONAL_KEYWORDS : List String :=
  ["INSURANCE", "MUTUAL FUND", "LIC", "TRUST", "BANK", "SECURITIES", "INVESTMENT",
   "CAPITAL", "FUND", "ASSET MANAGEMENT", "PENSION", "PMS", "AIF", "FII", "DII",
   "INSTITUTIONAL", "FINANCIAL SERVICES", "WEALTH", "HOLDINGS"]

/-- Source `isInstitutional`: upper-case the client name and test whether
any keyword occurs in it as a substring. -/
def isInstitutional (clientName : String) : Bool :=
  INSTITUTIONAL_KEYWORDS.any (fun keyword => containsSeq keyword.data (toUpperString clientName).data)

/-- Source `currentDate.getDay()` on a model date. -/
def getDay (d : ℤ) : ℤ := d % 7

/-- The weekend test of `getLastNBusinessDays` (`dayOfWeek === 0 || dayOfWeek === 6`). -/
def isWeekend (d : ℤ) : Bool := decide (getDay d = 0) || decide (getDay d = 6)

/-- The `while (count < n)` loop of `getLastNBusinessDays`: walk backward
one calendar day per iteration, collecting non-weekend days until `n` are
found. The loop has no structural measure, so the embedding carries a
fuel argument; `bizLoop_length` below proves that the fuel supplied by
`getLastNBusinessDays` never runs out, which is the loop's termination
argument. -/
def bizLoop : ℕ → ℕ → ℤ → List ℤ
  | 0, _, _ => []
  | _ + 1, 0, _ => []
  | fuel + 1, n + 1, d =>
    if isWeekend d then bizLoop fuel (n + 1) (d - 1)
    else d :: bizLoop fuel n (d - 1)

/-- Source `getLastNBusinessDays(n)`, with the reference date (`new
Date()` in the source) made an explicit parameter. -/
def getLastNBusinessDays (n : ℕ) (today : ℤ) : List ℤ := bizLoop (3 * n + 2) n today

/-- Fuel needed before the next business day is reached from `d`:
0, 1 or 2 leading weekend days. Used only for the termination proof. -/
def wkDebt (d : ℤ) : ℕ :=
  if isWeekend d then (if isWeekend (d - 1) then 2 else 1) else 0

/-- The character loop of source `parseCSVLine`: `cur` is the `current`
accumulator, `inQ` the `inQuotes` flag. A quote toggles the flag, a
comma outside quotes ends the current field, anything else is appended. -/
def parseCSVLineGo : List Char → List Char → Bool → List String
  | [], cur, _ => [String.mk (trimChars cur)]
  | c :: cs, cur, inQ =>
    if c = '"' then parseCSVLineGo cs cur (!inQ)
    else if c = ',' ∧ inQ = false then String.mk (trimChars cur) :: parseCSVLineGo cs [] inQ
    else parseCSVLineGo cs (cur ++ [c]) inQ

/-- Source `parseCSVLine`. -/
def parseCSVLine (line : String) : List String := parseCSVLineGo line.data [] false

/-- Modelled from the spec's description of the row-parser contract
(§4.2): split the character list at exactly the delimiter occurrences
that lie outside quoted spans. Returns the first piece and the list of
remaining pieces; quote characters are kept in the pieces here and
removed by `removeQuotesTrim`. Used only to state claim C6. -/
def splitTopLevel : List Char → Bool → List Char × List (List Char)
  | [], _ => ([], [])
  | c :: cs, inQ =>
    if c = ',' ∧ inQ = false then
      ([], (splitTopLevel cs inQ).1 :: (splitTopLevel cs inQ).2)
    else
      ((c :: (splitTopLevel cs (if c = '"' then !inQ else inQ)).1),
       (splitTopLevel cs (if c = '"' then !inQ else inQ)).2)

/-- Spec-side field finishing for claim C6: quote characters are never
emitted as content, and each field is trimmed. -/
def removeQuotesTrim (p : List Char) : String :=
  String.mk (trimChars (p.filter (fun c => c ≠ '"')))

/-- Spec-side description of `parseCSVLine` for claim C6: fields are the
top-level-delimited pieces, unquoted and trimmed. -/
def splitFieldsSpec (line : String) : List String :=
  removeQuotesTrim (splitTopLevel line.data false).1 ::
    ((splitTopLevel line.data false).2).map removeQuotesTrim

/-- The `Deal` record of the source. -/
structure Deal where
  date : String
  symbol : String
  clientName : String
  dealType : String
  quantity : ℚ
  price : ℚ
  value : ℚ
deriving DecidableEq

/-- The numeric-field pipeline of the row loop of `downloadBhavCopy`:
`parseFloat(field?.replace(/,/g, '') || '0')`. The `|| '0'` applies when
comma-stripping leaves the empty string (a falsy value in JS). -/
def parseNumField (s : String) : Option ℚ :=
  jsParseFloat (if stripCommas s = "" then "0" else stripCommas s)

/-- One iteration of the data-row loop of source `downloadBhavCopy`
(lines 131-153): parse the line, require at least 8 fields, extract and
validate the used columns, and build a `Deal` or skip the row. -/
def parseDealRow (dateStr : String) (line : String) : Option Deal :=
  if (parseCSVLine line).length < 8 then none
  else
    match parseNumField ((parseCSVLine line).getD 4 ""),
          parseNumField ((parseCSVLine line).getD 5 "") with
    | some q, some p =>
      if trimString ((parseCSVLine line).getD 1 "") ≠ ""
          ∧ trimString ((parseCSVLine line).getD 2 "") ≠ ""
          ∧ 0 < q ∧ 0 < p
          ∧ toUpperString (trimString ((parseCSVLine line).getD 3 "")) = "BUY"
      then some
        { date := dateStr
          symbol := trimString ((parseCSVLine line).getD 1 "")
          clientName := trimString ((parseCSVLine line).getD 2 "")
          dealType := toUpperString (trimString ((parseCSVLine line).getD 3 ""))
          quantity := q
          price := p
          value := q * p }
      else none
    | _, _ => none

/-- The body-parsing part of source `downloadBhavCopy`: split into
non-blank lines, return `[]` when fewer than 2 lines remain, otherwise
skip the header and run the row loop over the rest. -/
def parseBhavCopy (dateStr : String) (csvText : String) : List Deal :=
  if (((splitNl csvText.data).map String.mk).filter
        (fun l => !(trimChars l.data).isEmpty)).length < 2 then []
  else
    ((((splitNl csvText.data).map String.mk).filter
        (fun l => !(trimChars l.data).isEmpty)).drop 1).filterMap (parseDealRow dateStr)

/-- Outcome of the HTTP GET inside `downloadBhavCopy`: a thrown network
or parse-level exception (absorbed by the function's own try/catch), or
a response with its `ok` flag and body text. -/
inductive FetchOutcome where
  | networkError (msg : String)
  | success (ok : Bool) (body : String)

/-- Source `downloadBhavCopy` as a function of the fetch outcome: a
caught exception or a non-ok status degrade to the empty list, otherwise
the body is parsed. Totality of this definition is the embedding of
"never throws". -/
def downloadBhavCopy (outcome : FetchOutcome) (dateStr : String) : List Deal :=
  match outcome with
  | FetchOutcome.networkError _ => []
  | FetchOutcome.success false _ => []
  | FetchOutcome.success true body => parseBhavCopy dateStr body

/-- The per-symbol record stored in the source's `stockMap`. -/
structure AccData where
  totalBuyQuantity : ℚ
  totalBuyValue : ℚ
  transactions : ℕ
deriving DecidableEq

/-- JS `Map.prototype.get` on the insertion-ordered association list. -/
def mapGet : List (String × AccData) → String → Option AccData
  | [], _ => none
  | (k, v) :: rest, key => if k = key then some v else mapGet rest key

/-- JS `Map.prototype.set`: update the value in place when the key is
present (keeping its insertion position), append otherwise. -/
def mapSet : List (String × AccData) → String → AccData → List (String × AccData)
  | [], key, val => [(key, val)]
  | (k, v) :: rest, key, val =>
    if k = key then (k, val) :: rest else (k, v) :: mapSet rest key val

/-- Folding one deal into a symbol's record (the `stockMap.set` payload
of the source: add quantity, add value, count one transaction). -/
def addDealData (v : AccData) (d : Deal) : AccData :=
  { totalBuyQuantity := v.totalBuyQuantity + d.quantity
    totalBuyValue := v.totalBuyValue + d.value
    transactions := v.transactions + 1 }

/-- The `for (const deal of institutionalDeals)` loop of
`analyzeAccumulation`: fold each deal into the map, starting each new
symbol from the zero record. -/
def accumulate : List Deal → List (String × AccData) → List (String × AccData)
  | [], m => m
  | d :: ds, m =>
    accumulate ds (mapSet m d.symbol (addDealData ((mapGet m d.symbol).getD ⟨0, 0, 0⟩) d))

/-- The `StockAccumulation` record of the source. -/
structure StockAccumulation where
  symbol : String
  totalBuyQuantity : ℚ
  totalBuyValue : ℚ
  transactions : ℕ
  avgPrice : ℚ
deriving DecidableEq

/-- The map-entry-to-result conversion of `analyzeAccumulation`
(`Array.from(stockMap.entries()).map(...)`), computing `avgPrice`. -/
def toAccum (p : String × AccData) : StockAccumulation :=
  { symbol := p.1
    totalBuyQuantity := p.2.totalBuyQuantity
    totalBuyValue := p.2.totalBuyValue
    transactions := p.2.transactions
    avgPrice := p.2.totalBuyValue / p.2.totalBuyQuantity }

/-- Stable insertion for the embedding of the source's
`results.sort((a, b) => b.totalBuyValue - a.totalBuyValue)`: an element
moves before the first strictly-smaller total, and stays after equal
totals. -/
def insertDesc (x : StockAccumulation) : List StockAccumulation → List StockAccumulation
  | [] => [x]
  | y :: ys =>
    if y.totalBuyValue ≤ x.totalBuyValue then x :: y :: ys else y :: insertDesc x ys

/-- Embedding of the JS stable sort with comparator
`(a, b) => b.totalBuyValue - a.totalBuyValue` (descending by total buy
value, ties kept in input order) as a stable insertion sort. -/
def sortByValueDesc : List StockAccumulation → List StockAccumulation
  | [] => []
  | x :: xs => insertDesc x (sortByValueDesc xs)

/-- The filter predicate of `analyzeAccumulation`:
`deal.dealType === 'BUY' && isInstitutional(deal.clientName)`. -/
def qualifies (d : Deal) : Bool :=
  decide (d.dealType = "BUY") && isInstitutional d.clientName

/-- Source `analyzeAccumulation`: filter to institutional BUY deals,
group through the insertion-ordered map, compute averages, sort by total
buy value descending, and keep the top 10. -/
def analyzeAccumulation (allDeals : List Deal) : List StockAccumulation :=
  (sortByValueDesc ((accumulate (allDeals.filter qualifies) []).map toAccum)).take 10

/-- Spec-side helper for claims C1, C9 and C10: the distinct elements of
a list in first-encounter order. -/
def firstOccs : List String → List String
  | [] => []
  | s :: rest => s :: firstOccs (rest.filter (fun x => x ≠ s))
termination_by l => l.length
decreasing_by
  simp only [List.length_cons]
  exact Nat.lt_succ_of_le (List.length_filter_le _ _)

/-- Spec-side (claim C1): the qualifying symbols in first-encounter
order. -/
def specSymbols (deals : List Deal) : List String :=
  firstOccs ((deals.filter qualifies).map Deal.symbol)

/-- Spec-side (claim C1): the per-symbol accumulation described by the
spec — sum quantity, sum value, count rows, average price. -/
def specEntry (deals : List Deal) (s : String) : StockAccumulation :=
  { symbol := s
    totalBuyQuantity := (((deals.filter qualifies).filter (fun d => d.symbol = s)).map Deal.quantity).sum
    totalBuyValue := (((deals.filter qualifies).filter (fun d => d.symbol = s)).map Deal.value).sum
    transactions := ((deals.filter qualifies).filter (fun d => d.symbol = s)).length
    avgPrice := (((deals.filter qualifies).filter (fun d => d.symbol = s)).map Deal.value).sum
      / (((deals.filter qualifies).filter (fun d => d.symbol = s)).map Deal.quantity).sum }

/-- The server-sent events the orchestrator emits. -/
inductive AnalyzeEvent where
  | progress (message : String)
  | result (data : List StockAccumulation)
  | error (message : String)
deriving DecidableEq

/-- Recogniser for progress events. -/
def isProgressEv : AnalyzeEvent → Bool
  | AnalyzeEvent.progress _ => true
  | _ => false

/-- Recogniser for result events. -/
def isResultEv : AnalyzeEvent → Bool
  | AnalyzeEvent.result _ => true
  | _ => false

/-- Recogniser for error events. -/
def isErrorEv : AnalyzeEvent → Bool
  | AnalyzeEvent.error _ => true
  | _ => false

/-- The per-day progress message (the source formats the date with
`toLocaleDateString('en-IN')`; the embedding prints the model day
number). -/
def fetchMsg (d : ℤ) : String := "Fetching data for " ++ toString d ++ "..."

/-- The summary progress message of the orchestrator. -/
def analyzeMsg (n : ℕ) : String :=
  "Analyzing " ++ toString n ++ " transactions from institutional investors..."

/-- The event-emitting body of source `POST` (lines 207-238): for each
date emit a progress event and fetch; a value returned by the fetch step
is appended to the accumulator, an exception escaping the loop body (the
`Except.error` case) is the outer catch: one error event and the stream
ends. After the loop: the summary progress event, then the single result
event. -/
def runLoop (fetch : ℤ → Except String (List Deal)) :
    List ℤ → List Deal → List AnalyzeEvent
  | [], acc =>
    [AnalyzeEvent.progress (analyzeMsg acc.length),
     AnalyzeEvent.result (analyzeAccumulation acc)]
  | d :: ds, acc =>
    AnalyzeEvent.progress (fetchMsg d) ::
      (match fetch d with
       | Except.ok deals => runLoop fetch ds (acc ++ deals)
       | Except.error e => [AnalyzeEvent.error e])

/-- Source `POST`: run the loop over the last 5 business days with an
empty accumulator. -/
def runPOST (today : ℤ) (fetch : ℤ → Except String (List Deal)) : List AnalyzeEvent :=
  runLoop fetch (getLastNBusinessDays 5 today) []

/-- The three-deal example of the spec (§8): two institutional BUY deals
in TCS and one non-institutional deal, all with `value = qty × price`. -/
def exampleDeals : List Deal :=
  [{ date := "2024-01-01", symbol := "TCS", clientName := "XYZ MUTUAL FUND",
     dealType := "BUY", quantity := 100, price := 10, value := 1000 },
   { date := "2024-01-01", symbol := "TCS", clientName := "ABC INSURANCE",
     dealType := "BUY", quantity := 50, price := 20, value := 1000 },
   { date := "2024-01-01", symbol := "TCS", clientName := "RAJESH KUMAR SHARMA",
     dealType := "BUY", quantity := 10, price := 5, value := 50 }]

/-- The single accumulation entry produced on the three-deal example. -/
def exampleEntry : StockAccumulation :=
  { symbol := "TCS", totalBuyQuantity := 150, totalBuyValue := 2000,
    transactions := 2, avgPrice := 40 / 3 }

/-- The synthetic day-2 batch of the spec's end-to-end example (§8):
3 qualifying BUY rows for 2 symbols. -/
def exDeals2 : List Deal :=
  [{ date := "2024-01-02", symbol := "TCS", clientName := "XYZ MUTUAL FUND",
     dealType := "BUY", quantity := 100, price := 10, value := 1000 },
   { date := "2024-01-02", symbol := "INFY", clientName := "ABC INSURANCE",
     dealType := "BUY", quantity := 50, price := 20, value := 1000 },
   { date := "2024-01-02", symbol := "TCS", clientName := "PQR SECURITIES",
     dealType := "BUY", quantity := 30, price := 10, value := 300 }]

/-- The fetch oracle of the end-to-end example: day 10 (the more recent
business day) returns the batch, day 9 returns no data. -/
def exOracle : ℤ → Except String (List Deal) :=
  fun d => Except.ok (if d = 10 then exDeals2 else [])

/-! ## Lemmas: row parser (claim C6) -/

lemma parseCSVLineGo_nil (cur : List Char) (inQ : Bool) :
    parseCSVLineGo [] cur inQ = [String.mk (trimChars cur)] := rfl

lemma parseCSVLineGo_cons (c : Char) (cs cur : List Char) (inQ : Bool) :
    parseCSVLineGo (c :: cs) cur inQ =
      if c = '"' then parseCSVLineGo cs cur (!inQ)
      else if c = ',' ∧ inQ = false then
        String.mk (trimChars cur) :: parseCSVLineGo cs [] inQ
      else parseCSVLineGo cs (cur ++ [c]) inQ := rfl

lemma splitTopLevel_nil (inQ : Bool) : splitTopLevel [] inQ = ([], []) := rfl

lemma splitTopLevel_cons (c : Char) (cs : List Char) (inQ : Bool) :
    splitTopLevel (c :: cs) inQ =
      if c = ',' ∧ inQ = false then
        ([], (splitTopLevel cs inQ).1 :: (splitTopLevel cs inQ).2)
      else
        ((c :: (splitTopLevel cs (if c = '"' then !inQ else inQ)).1),
         (splitTopLevel cs (if c = '"' then !inQ else inQ)).2) := rfl

lemma parseCSVLineGo_eq_spec (cs : List Char) : ∀ (cur : List Char) (inQ : Bool),
    parseCSVLineGo cs cur inQ =
      String.mk (trimChars (cur ++ (splitTopLevel cs inQ).1.filter (fun c => c ≠ '"'))) ::
        ((splitTopLevel cs inQ).2).map removeQuotesTrim := by
  induction cs with
  | nil => intro cur inQ; simp [parseCSVLineGo_nil, splitTopLevel_nil]
  | cons c cs ih =>
    intro cur inQ
    rw [parseCSVLineGo_cons, splitTopLevel_cons]
    by_cases hq : c = '"'
    · subst hq
      have hnc : ¬('"' = ',' ∧ inQ = false) := by rintro ⟨h, -⟩; exact absurd h (by decide)
      rw [if_pos rfl, if_neg hnc, ih]
      simp
    · by_cases hcm : c = ',' ∧ inQ = false
      · rw [if_neg hq, if_pos hcm, if_pos hcm, ih]
        simp [removeQuotesTrim]
      · rw [if_neg hq, if_neg hcm, if_neg hcm, ih]
        simp [hq, List.filter_cons]

lemma parseCSVLine_eq_spec (line : String) : parseCSVLine line = splitFieldsSpec line := by
  unfold parseCSVLine splitFieldsSpec
  rw [parseCSVLineGo_eq_spec]
  simp [removeQuotesTrim]

/-! ## Lemmas: institutional classifier (claim C8) -/

lemma startsSeq_iff (n : List Char) : ∀ h : List Char, startsSeq n h = true ↔ n <+: h := by
  induction n with
  | nil => intro h; simp [startsSeq]
  | cons a as ih =>
    intro h
    cases h with
    | nil => simp [startsSeq]
    | cons b bs => simp [startsSeq, List.cons_prefix_cons, ih, beq_iff_eq]

lemma containsSeq_iff (n h : List Char) : containsSeq n h = true ↔ n <:+: h := by
  induction h with
  | nil => simp [containsSeq, List.infix_nil, List.isEmpty_iff]
  | cons c cs ih => simp [containsSeq, startsSeq_iff, ih, List.infix_cons_iff]

/-! ## Lemmas: business-day calendar (claim C5) -/

lemma isWeekend_iff (d : ℤ) : isWeekend d = true ↔ (d % 7 = 0 ∨ d % 7 = 6) := by
  simp [isWeekend, getDay]

lemma isWeekend_false_iff (d : ℤ) : isWeekend d = false ↔ ¬(d % 7 = 0 ∨ d % 7 = 6) := by
  rw [← isWeekend_iff]; simp

lemma not_three_weekend (d : ℤ) (h0 : isWeekend d = true) (h1 : isWeekend (d - 1) = true) :
    isWeekend (d - 2) = false := by
  rw [isWeekend_iff] at h0 h1
  rw [isWeekend_false_iff]
  omega

lemma wkDebt_le_two (d : ℤ) : wkDebt d ≤ 2 := by
  unfold wkDebt
  split
  · split <;> omega
  · omega

lemma wkDebt_of_false (d : ℤ) (h : isWeekend d = false) : wkDebt d = 0 := by
  simp [wkDebt, h]

lemma wkDebt_of_true_false (d : ℤ) (h : isWeekend d = true) (h1 : isWeekend (d - 1) = false) :
    wkDebt d = 1 := by
  simp [wkDebt, h, h1]

lemma wkDebt_of_true_true (d : ℤ) (h : isWeekend d = true) (h1 : isWeekend (d - 1) = true) :
    wkDebt d = 2 := by
  simp [wkDebt, h, h1]

lemma bizLoop_weekend (fuel n : ℕ) (d : ℤ) (hw : isWeekend d = true) :
    bizLoop (fuel + 1) (n + 1) d = bizLoop fuel (n + 1) (d - 1) := by
  simp [bizLoop, hw]

lemma bizLoop_business (fuel n : ℕ) (d : ℤ) (hw : isWeekend d = false) :
    bizLoop (fuel + 1) (n + 1) d = d :: bizLoop fuel n (d - 1) := by
  simp [bizLoop, hw]

lemma bizLoop_length : ∀ (fuel n : ℕ) (d : ℤ), 3 * n + wkDebt d ≤ fuel →
    (bizLoop fuel n d).length = n := by
  intro fuel
  induction fuel with
  | zero =>
    intro n d h
    have hn : n = 0 := by omega
    subst hn; rfl
  | succ fuel ih =>
    intro n d h
    cases n with
    | zero => rfl
    | succ n =>
      cases hw : isWeekend d with
      | false =>
        rw [bizLoop_business fuel n d hw]
        have hdebt : wkDebt (d - 1) ≤ 2 := wkDebt_le_two (d - 1)
        have hwk : wkDebt d = 0 := wkDebt_of_false d hw
        simp [ih n (d - 1) (by omega)]
      | true =>
        rw [bizLoop_weekend fuel n d hw]
        apply ih
        cases hw1 : isWeekend (d - 1) with
        | false =>
          have e1 : wkDebt d = 1 := wkDebt_of_true_false d hw hw1
          have e2 : wkDebt (d - 1) = 0 := wkDebt_of_false (d - 1) hw1
          omega
        | true =>
          have h2 : isWeekend (d - 1 - 1) = false := by
            have := not_three_weekend d hw hw1
            rw [show d - 1 - 1 = d - 2 from by ring]
            exact this
          have e1 : wkDebt d = 2 := wkDebt_of_true_true d hw hw1
          have e2 : wkDebt (d - 1) = 1 := wkDebt_of_true_false (d - 1) hw1 h2
          omega

lemma bizLoop_mem : ∀ (fuel n : ℕ) (d : ℤ) (e : ℤ), e ∈ bizLoop fuel n d →
    isWeekend e = false ∧ e ≤ d := by
  intro fuel
  induction fuel with
  | zero => intro n d e h; simp [bizLoop] at h
  | succ fuel ih =>
    intro n d e h
    cases n with
    | zero => simp [bizLoop] at h
    | succ n =>
      cases hw : isWeekend d with
      | false =>
        rw [bizLoop_business fuel n d hw] at h
        rcases List.mem_cons.mp h with rfl | h
        · exact ⟨hw, le_refl _⟩
        · have := ih n (d - 1) e h
          exact ⟨this.1, by omega⟩
      | true =>
        rw [bizLoop_weekend fuel n d hw] at h
        have := ih (n + 1) (d - 1) e h
        exact ⟨this.1, by omega⟩

lemma bizLoop_head_gap : ∀ (fuel n : ℕ) (d e : ℤ), (bizLoop fuel n d).head? = some e →
    ∀ x : ℤ, e < x → x ≤ d → isWeekend x = true := by
  intro fuel
  induction fuel with
  | zero => intro n d e h; simp [bizLoop] at h
  | succ fuel ih =>
    intro n d e h
    cases n with
    | zero => simp [bizLoop] at h
    | succ n =>
      cases hw : isWeekend d with
      | false =>
        rw [bizLoop_business fuel n d hw] at h
        simp at h
        intro x hx1 hx2
        omega
      | true =>
        rw [bizLoop_weekend fuel n d hw] at h
        intro x hx1 hx2
        rcases eq_or_lt_of_le hx2 with rfl | hlt
        · exact hw
        · exact ih (n + 1) (d - 1) e h x hx1 (by omega)

lemma bizLoop_chain : ∀ (fuel n : ℕ) (d : ℤ),
    List.Chain' (fun a b => b < a ∧ ∀ x : ℤ, b < x → x < a → isWeekend x = true)
      (bizLoop fuel n d) := by
  intro fuel
  induction fuel with
  | zero => intro n d; simp [bizLoop]
  | succ fuel ih =>
    intro n d
    cases n with
    | zero => simp [bizLoop]
    | succ n =>
      cases hw : isWeekend d with
      | false =>
        rw [bizLoop_business fuel n d hw]
        rw [List.chain'_cons']
        refine ⟨?_, ih n (d - 1)⟩
        intro e he
        have hmem := bizLoop_mem fuel n (d - 1) e (List.mem_of_mem_head? he)
        refine ⟨by omega, ?_⟩
        intro x hx1 hx2
        exact bizLoop_head_gap fuel n (d - 1) e he x hx1 (by omega)
      | true =>
        rw [bizLoop_weekend fuel n d hw]
        exact ih (n + 1) (d - 1)

lemma bizLoop_pairwise : ∀ (fuel n : ℕ) (d : ℤ),
    List.Pairwise (fun a b => b < a) (bizLoop fuel n d) := by
  intro fuel
  induction fuel with
  | zero => intro n d; simp [bizLoop]
  | succ fuel ih =>
    intro n d
    cases n with
    | zero => simp [bizLoop]
    | succ n =>
      cases hw : isWeekend d with
      | false =>
        rw [bizLoop_business fuel n d hw]
        refine List.pairwise_cons.mpr ⟨?_, ih n (d - 1)⟩
        intro e he
        have := bizLoop_mem fuel n (d - 1) e he
        omega
      | true =>
        rw [bizLoop_weekend fuel n d hw]
        exact ih (n + 1) (d - 1)

/-! ## Lemmas: orchestrator event stream (claims C2, C4) -/

lemma runLoop_nil (fetch : ℤ → Except String (List Deal)) (acc : List Deal) :
    runLoop fetch [] acc =
      [AnalyzeEvent.progress (analyzeMsg acc.length),
       AnalyzeEvent.result (analyzeAccumulation acc)] := rfl

lemma runLoop_cons_ok (fetch : ℤ → Except String (List Deal)) (d : ℤ) (ds : List ℤ)
    (acc deals : List Deal) (h : fetch d = Except.ok deals) :
    runLoop fetch (d :: ds) acc =
      AnalyzeEvent.progress (fetchMsg d) :: runLoop fetch ds (acc ++ deals) := by
  simp [runLoop, h]

lemma runLoop_cons_err (fetch : ℤ → Except String (List Deal)) (d : ℤ) (ds : List ℤ)
    (acc : List Deal) (e : String) (h : fetch d = Except.error e) :
    runLoop fetch (d :: ds) acc =
      [AnalyzeEvent.progress (fetchMsg d), AnalyzeEvent.error e] := by
  simp [runLoop, h]

lemma runLoop_ne_nil (fetch : ℤ → Except String (List Deal)) (dates : List ℤ)
    (acc : List Deal) : runLoop fetch dates acc ≠ [] := by
  cases dates with
  | nil => simp [runLoop]
  | cons d ds =>
    cases h : fetch d with
    | ok deals => rw [runLoop_cons_ok fetch d ds acc _ h]; simp
    | error e => rw [runLoop_cons_err fetch d ds acc e h]; simp

lemma runLoop_ok_spec (fetch : ℤ → List Deal) : ∀ (dates : List ℤ) (acc : List Deal),
    runLoop (fun d => Except.ok (fetch d)) dates acc =
      dates.map (fun d => AnalyzeEvent.progress (fetchMsg d))
      ++ [AnalyzeEvent.progress (analyzeMsg (acc ++ dates.flatMap fetch).length),
          AnalyzeEvent.result (analyzeAccumulation (acc ++ dates.flatMap fetch))] := by
  intro dates
  induction dates with
  | nil => intro acc; simp [runLoop_nil]
  | cons d ds ih =>
    intro acc
    rw [runLoop_cons_ok _ d ds acc (fetch d) rfl, ih (acc ++ fetch d)]
    simp [List.flatMap_cons, List.append_assoc]

lemma runLoop_one_terminal (fetch : ℤ → Except String (List Deal)) :
    ∀ (dates : List ℤ) (acc : List Deal),
    ((runLoop fetch dates acc).countP isErrorEv = 0
      ∧ (runLoop fetch dates acc).countP isResultEv = 1
      ∧ (∃ r, (runLoop fetch dates acc).getLast? = some (AnalyzeEvent.result r)))
    ∨ ((runLoop fetch dates acc).countP isErrorEv = 1
      ∧ (runLoop fetch dates acc).countP isResultEv = 0
      ∧ (∃ e, (runLoop fetch dates acc).getLast? = some (AnalyzeEvent.error e))) := by
  intro dates
  induction dates with
  | nil =>
    intro acc
    left
    refine ⟨?_, ?_, analyzeAccumulation acc, ?_⟩ <;>
      simp [runLoop_nil, List.countP_cons, isErrorEv, isResultEv]
  | cons d ds ih =>
    intro acc
    cases hf : fetch d with
    | ok deals =>
      rw [runLoop_cons_ok fetch d ds acc deals hf]
      obtain ⟨x, xs, hx⟩ :=
        List.exists_cons_of_ne_nil (runLoop_ne_nil fetch ds (acc ++ deals))
      rcases ih (acc ++ deals) with ⟨h1, h2, r, h3⟩ | ⟨h1, h2, e, h3⟩
      · left
        refine ⟨?_, ?_, r, ?_⟩
        · simp [List.countP_cons, isErrorEv, h1]
        · simp [List.countP_cons, isResultEv, h2]
        · rw [hx] at h3 ⊢
          rw [List.getLast?_cons_cons]
          exact h3
      · right
        refine ⟨?_, ?_, e, ?_⟩
        · simp [List.countP_cons, isErrorEv, h1]
        · simp [List.countP_cons, isResultEv, h2]
        · rw [hx] at h3 ⊢
          rw [List.getLast?_cons_cons]
          exact h3
    | error e =>
      rw [runLoop_cons_err fetch d ds acc e hf]
      right
      refine ⟨?_, ?_, e, ?_⟩ <;>
        simp [List.countP_cons, isErrorEv, isResultEv]

/-! ## Lemmas: the insertion-ordered map (claims C1, C9, C10) -/

lemma mapGet_eq_none_iff (m : List (String × AccData)) (k : String) :
    mapGet m k = none ↔ k ∉ m.map Prod.fst := by
  induction m with
  | nil => simp [mapGet]
  | cons a m ih =>
    obtain ⟨k', v'⟩ := a
    by_cases hk : k' = k
    · subst hk; simp [mapGet]
    · simp [mapGet, hk, ih, Ne.symm hk]

lemma mapGet_isSome_iff (m : List (String × AccData)) (k : String) :
    (mapGet m k).isSome = true ↔ k ∈ m.map Prod.fst := by
  cases h : mapGet m k with
  | none => simp [(mapGet_eq_none_iff m k).mp h]
  | some v =>
    simp only [Option.isSome_some, true_iff]
    by_contra hmem
    rw [← mapGet_eq_none_iff] at hmem
    rw [h] at hmem
    exact Option.noConfusion hmem

lemma mapSet_of_none (m : List (String × AccData)) (k : String) (v : AccData)
    (h : mapGet m k = none) : mapSet m k v = m ++ [(k, v)] := by
  induction m with
  | nil => rfl
  | cons a m ih =>
    obtain ⟨k', v'⟩ := a
    by_cases hk : k' = k
    · subst hk; simp [mapGet] at h
    · have h' : mapGet m k = none := by simpa [mapGet, hk] using h
      simp only [mapSet, if_neg hk, List.cons_append]
      rw [ih h']

lemma map_update_of_not_mem (m : List (String × AccData)) (k : String) (w : AccData)
    (h : k ∉ m.map Prod.fst) :
    m.map (fun p => if p.1 = k then (p.1, w) else p) = m := by
  induction m with
  | nil => rfl
  | cons a m ih =>
    obtain ⟨k', v'⟩ := a
    have hk : ¬(k' = k) := by
      intro e; exact h (by simp [e])
    have h' : k ∉ m.map Prod.fst := by
      intro hm; exact h (by simp [hm])
    simp only [List.map_cons]
    rw [ih h']
    simp [hk]

lemma mapSet_of_some (m : List (String × AccData)) (k : String) (v w : AccData)
    (hnd : (m.map Prod.fst).Nodup) (h : mapGet m k = some w) :
    mapSet m k v = m.map (fun p => if p.1 = k then (p.1, v) else p) := by
  induction m with
  | nil => simp [mapGet] at h
  | cons a m ih =>
    obtain ⟨k', v'⟩ := a
    simp only [List.map_cons, List.nodup_cons] at hnd
    by_cases hk : k' = k
    · subst hk
      simp only [mapSet, if_pos rfl, List.map_cons]
      rw [map_update_of_not_mem m k' v hnd.1]
      simp
    · have h' : mapGet m k = some w := by simpa [mapGet, hk] using h
      simp only [mapSet, if_neg hk, List.map_cons]
      rw [ih hnd.2 h']

lemma mapGet_value_unique (m : List (String × AccData)) (k : String) (w : AccData)
    (hnd : (m.map Prod.fst).Nodup) (h : mapGet m k = some w) :
    ∀ p ∈ m, p.1 = k → p.2 = w := by
  induction m with
  | nil => intro p hp; simp at hp
  | cons a m ih =>
    obtain ⟨k', v'⟩ := a
    simp only [List.map_cons, List.nodup_cons] at hnd
    intro p hp hpk
    rcases List.mem_cons.mp hp with rfl | hp'
    · simp only at hpk
      have hv : mapGet ((k', v') :: m) k = some v' := by simp [mapGet, hpk]
      rw [h] at hv
      simpa using (Option.some.inj hv).symm
    · by_cases hk : k' = k
      · subst hk
        exact absurd (List.mem_map.mpr ⟨p, hp', hpk⟩) hnd.1
      · have h' : mapGet m k = some w := by simpa [mapGet, hk] using h
        exact ih hnd.2 h' p hp' hpk

lemma mapGet_append_of_none (m₁ m₂ : List (String × AccData)) (k : String)
    (h : mapGet m₁ k = none) : mapGet (m₁ ++ m₂) k = mapGet m₂ k := by
  induction m₁ with
  | nil => rfl
  | cons a m ih =>
    obtain ⟨k', v'⟩ := a
    by_cases hk : k' = k
    · subst hk; simp [mapGet] at h
    · have h' : mapGet m k = none := by simpa [mapGet, hk] using h
      simp [mapGet, hk, ih h']

lemma mapGet_append_of_some (m₁ m₂ : List (String × AccData)) (k : String) (v : AccData)
    (h : mapGet m₁ k = some v) : mapGet (m₁ ++ m₂) k = some v := by
  induction m₁ with
  | nil => simp [mapGet] at h
  | cons a m ih =>
    obtain ⟨k', v'⟩ := a
    by_cases hk : k' = k
    · subst hk
      have : v' = v := by simpa [mapGet] using h
      simp [mapGet, this]
    · have h' : mapGet m k = some v := by simpa [mapGet, hk] using h
      simp [mapGet, hk, ih h']

lemma keys_map_update (m : List (String × AccData)) (k : String) (v : AccData) :
    (m.map (fun p => if p.1 = k then (p.1, v) else p)).map Prod.fst = m.map Prod.fst := by
  rw [List.map_map]
  apply List.map_congr_left
  intro p _
  by_cases hp : p.1 = k <;> simp [Function.comp, hp]

/-! ## Lemmas: first-encounter order (claims C1, C9, C10) -/

lemma firstOccs_mem_fuel : ∀ (n : ℕ) (l : List String), l.length ≤ n →
    ∀ x ∈ firstOccs l, x ∈ l := by
  intro n
  induction n with
  | zero =>
    intro l hl x hx
    rw [List.length_eq_zero.mp (Nat.le_zero.mp hl)] at hx
    simp [firstOccs] at hx
  | succ n ih =>
    intro l hl x hx
    cases l with
    | nil => simp [firstOccs] at hx
    | cons s rest =>
      rw [show firstOccs (s :: rest) = s :: firstOccs (rest.filter (fun x => x ≠ s)) from by
        rw [firstOccs]] at hx
      rcases List.mem_cons.mp hx with rfl | hx'
      · exact List.mem_cons_self _ _
      · have hlen : (rest.filter (fun x => x ≠ s)).length ≤ n := by
          have := List.length_filter_le (fun x => x ≠ s) rest
          simp at hl
          omega
        exact List.mem_cons_of_mem s (List.mem_of_mem_filter (ih _ hlen x hx'))

lemma firstOccs_mem (l : List String) : ∀ x ∈ firstOccs l, x ∈ l :=
  firstOccs_mem_fuel l.length l (le_refl _)

lemma firstOccs_nodup_fuel : ∀ (n : ℕ) (l : List String), l.length ≤ n →
    (firstOccs l).Nodup := by
  intro n
  induction n with
  | zero =>
    intro l hl
    rw [List.length_eq_zero.mp (Nat.le_zero.mp hl)]
    simp [firstOccs]
  | succ n ih =>
    intro l hl
    cases l with
    | nil => simp [firstOccs]
    | cons s rest =>
      rw [show firstOccs (s :: rest) = s :: firstOccs (rest.filter (fun x => x ≠ s)) from by
        rw [firstOccs]]
      have hlen : (rest.filter (fun x => x ≠ s)).length ≤ n := by
        have := List.length_filter_le (fun x => x ≠ s) rest
        simp at hl
        omega
      refine List.nodup_cons.mpr ⟨?_, ih _ hlen⟩
      intro hmem
      have := firstOccs_mem _ s hmem
      simp at this

lemma firstOccs_nodup (l : List String) : (firstOccs l).Nodup :=
  firstOccs_nodup_fuel l.length l (le_refl _)

/-! ## The group-by characterization of accumulate (claims C1, C9, C10) -/

lemma accumulate_cons (d : Deal) (ds : List Deal) (m : List (String × AccData)) :
    accumulate (d :: ds) m =
      accumulate ds (mapSet m d.symbol (addDealData ((mapGet m d.symbol).getD ⟨0, 0, 0⟩) d)) := rfl

lemma accumulate_eq_spec : ∀ (ds : List Deal) (m : List (String × AccData)),
    (m.map Prod.fst).Nodup →
    accumulate ds m =
      m.map (fun p => (p.1, (ds.filter (fun d => d.symbol = p.1)).foldl addDealData p.2))
      ++ (firstOccs ((ds.map Deal.symbol).filter (fun s => !(mapGet m s).isSome))).map
           (fun s => (s, (ds.filter (fun d => d.symbol = s)).foldl addDealData ⟨0, 0, 0⟩)) := by
  intro ds
  induction ds with
  | nil =>
    intro m hnd
    simp [accumulate, firstOccs]
  | cons d ds ih =>
    intro m hnd
    cases hm : mapGet m d.symbol with
    | some w =>
      have hstep : accumulate (d :: ds) m =
          accumulate ds (m.map (fun p => if p.1 = d.symbol then (p.1, addDealData w d) else p)) := by
        rw [accumulate_cons, hm, Option.getD_some,
          mapSet_of_some m d.symbol (addDealData w d) w hnd hm]
      have hnd' : ((m.map (fun p => if p.1 = d.symbol then (p.1, addDealData w d) else p)).map
          Prod.fst).Nodup := by
        rw [keys_map_update]; exact hnd
      rw [hstep, ih _ hnd']
      have hpred : ∀ s : String,
          (!(mapGet (m.map (fun p => if p.1 = d.symbol then (p.1, addDealData w d) else p)) s).isSome)
            = (!(mapGet m s).isSome) := by
        intro s
        by_cases hs : s ∈ m.map Prod.fst
        · rw [(mapGet_isSome_iff _ _).mpr (by rw [keys_map_update]; exact hs),
            (mapGet_isSome_iff _ _).mpr hs]
        · rw [(mapGet_eq_none_iff _ _).mpr (by rw [keys_map_update]; exact hs),
            (mapGet_eq_none_iff _ _).mpr hs]
      have hpd : (!(mapGet m d.symbol).isSome) = false := by rw [hm]; rfl
      simp only [hpred, List.map_cons, List.filter_cons, hpd, Bool.false_eq_true, if_false]
      congr 1
      · rw [List.map_map]
        apply List.map_congr_left
        intro p hp
        by_cases hps : p.1 = d.symbol
        · have hp2 : p.2 = w := mapGet_value_unique m d.symbol w hnd hm p hp hps
          have hds : (decide (d.symbol = p.1)) = true := by simp [hps]
          simp only [Function.comp_apply, if_pos hps, List.filter_cons, hds, if_true,
            List.foldl_cons, hp2]
        · have hds : (decide (d.symbol = p.1)) = false := by
            simp only [decide_eq_false_iff_not]
            intro e; exact hps e.symm
          simp only [Function.comp_apply, if_neg hps, List.filter_cons, hds,
            Bool.false_eq_true, if_false]
      · apply List.map_congr_left
        intro s hs
        have hs1 := firstOccs_mem _ s hs
        have hs2 : mapGet m s = none := by
          rcases List.mem_filter.mp hs1 with ⟨-, hcond⟩
          simpa [Option.not_isSome_iff_eq_none] using hcond
        have hsd : ¬(d.symbol = s) := by
          intro e; rw [← e, hm] at hs2; exact Option.noConfusion hs2
        have hds : (decide (d.symbol = s)) = false := by simp [hsd]
        simp only [List.filter_cons, hds, Bool.false_eq_true, if_false]
    | none =>
      have hstep : accumulate (d :: ds) m =
          accumulate ds (m ++ [(d.symbol, addDealData ⟨0, 0, 0⟩ d)]) := by
        rw [accumulate_cons, hm, Option.getD_none, mapSet_of_none m d.symbol _ hm]
      have hnotmem : d.symbol ∉ m.map Prod.fst := (mapGet_eq_none_iff m d.symbol).mp hm
      have hnd' : ((m ++ [(d.symbol, addDealData ⟨0, 0, 0⟩ d)]).map Prod.fst).Nodup := by
        rw [List.map_append]
        rw [List.nodup_append]
        refine ⟨hnd, by simp, ?_⟩
        intro a ha hb
        simp at hb
        rw [hb] at ha
        exact hnotmem ha
      rw [hstep, ih _ hnd']
      have hpd : (!(mapGet m d.symbol).isSome) = true := by rw [hm]; rfl
      simp only [List.map_cons, List.filter_cons, hpd, if_pos]
      rw [show firstOccs (d.symbol :: (ds.map Deal.symbol).filter (fun s => !(mapGet m s).isSome))
            = d.symbol :: firstOccs (((ds.map Deal.symbol).filter
                (fun s => !(mapGet m s).isSome)).filter (fun x => x ≠ d.symbol)) from by
        rw [firstOccs]]
      simp only [List.map_append, List.map_cons, List.map_nil, List.cons_append,
        List.nil_append, List.append_assoc]
      congr 1
      · apply List.map_congr_left
        intro p hp
        have hps : ¬(p.1 = d.symbol) := by
          intro e; exact hnotmem (by rw [← e]; exact List.mem_map.mpr ⟨p, hp, rfl⟩)
        have hds : (decide (d.symbol = p.1)) = false := by
          simp only [decide_eq_false_iff_not]
          intro e; exact hps e.symm
        simp only [List.filter_cons, hds, Bool.false_eq_true, if_false]
      · rw [List.cons_eq_cons]
        refine ⟨?_, ?_⟩
        · -- the freshly inserted symbol's entry
          simp [List.filter_cons, List.foldl_cons]
        · -- the remaining fresh symbols
          have hlist2 : ((ds.map Deal.symbol).filter
                (fun s => !(mapGet (m ++ [(d.symbol, addDealData ⟨0, 0, 0⟩ d)]) s).isSome))
              = (((ds.map Deal.symbol).filter (fun s => !(mapGet m s).isSome)).filter
                  (fun x => x ≠ d.symbol)) := by
            rw [List.filter_filter]
            apply List.filter_congr
            intro s _
            by_cases hsd : s = d.symbol
            · subst hsd
              rw [mapGet_append_of_none m _ d.symbol hm]
              simp [mapGet]
            · cases hms : mapGet m s with
              | some v =>
                rw [mapGet_append_of_some m _ s v hms]
                simp [hms]
              | none =>
                rw [mapGet_append_of_none m _ s hms]
                have hnone : mapGet [(d.symbol, addDealData ⟨0, 0, 0⟩ d)] s = none := by
                  simp [mapGet]
                  intro e; exact hsd e.symm
                simp [hnone, hms, hsd]
          rw [hlist2]
          apply List.map_congr_left
          intro s hs
          have hs1 := firstOccs_mem _ s hs
          have hsd : s ≠ d.symbol := by
            rcases List.mem_filter.mp hs1 with ⟨-, hcond⟩
            exact of_decide_eq_true hcond
          have hds : (decide (d.symbol = s)) = false := by
            simp only [decide_eq_false_iff_not]
            intro e; exact hsd e.symm
          simp only [List.filter_cons, hds, Bool.false_eq_true, if_false]

/-! ## Entries and the stable descending sort (claims C1, C9, C10) -/

lemma foldl_addDealData (l : List Deal) : ∀ v : AccData,
    l.foldl addDealData v =
      ⟨v.totalBuyQuantity + (l.map Deal.quantity).sum,
       v.totalBuyValue + (l.map Deal.value).sum,
       v.transactions + l.length⟩ := by
  induction l with
  | nil => intro v; simp
  | cons d l ih =>
    intro v
    rw [List.foldl_cons, ih (addDealData v d)]
    simp only [addDealData, List.map_cons, List.sum_cons, List.length_cons, AccData.mk.injEq]
    refine ⟨by ring, by ring, by omega⟩

lemma accumulate_nil_entries (qs : List Deal) :
    accumulate qs [] = (firstOccs (qs.map Deal.symbol)).map
      (fun s => (s, (qs.filter (fun d => d.symbol = s)).foldl addDealData ⟨0, 0, 0⟩)) := by
  rw [accumulate_eq_spec qs [] (by simp)]
  simp [mapGet]

lemma accumulate_entries_eq (deals : List Deal) :
    (accumulate (deals.filter qualifies) []).map toAccum
      = (specSymbols deals).map (specEntry deals) := by
  rw [accumulate_nil_entries, List.map_map]
  apply List.map_congr_left
  intro s _
  simp only [Function.comp_apply, toAccum, foldl_addDealData, specEntry]
  simp

lemma insertDesc_perm (x : StockAccumulation) (l : List StockAccumulation) :
    (insertDesc x l).Perm (x :: l) := by
  induction l with
  | nil => simp [insertDesc]
  | cons y ys ih =>
    rw [insertDesc]
    by_cases h : y.totalBuyValue ≤ x.totalBuyValue
    · rw [if_pos h]
    · rw [if_neg h]
      exact ((ih.cons y).trans (List.Perm.swap x y ys))

lemma sortByValueDesc_perm (l : List StockAccumulation) : (sortByValueDesc l).Perm l := by
  induction l with
  | nil => simp [sortByValueDesc]
  | cons x xs ih =>
    rw [sortByValueDesc]
    exact (insertDesc_perm x (sortByValueDesc xs)).trans (ih.cons x)

lemma insertDesc_pairwise (x : StockAccumulation) (l : List StockAccumulation)
    (h : l.Pairwise (fun a b => b.totalBuyValue ≤ a.totalBuyValue)) :
    (insertDesc x l).Pairwise (fun a b => b.totalBuyValue ≤ a.totalBuyValue) := by
  induction l with
  | nil => simp [insertDesc]
  | cons y ys ih =>
    rw [List.pairwise_cons] at h
    rw [insertDesc]
    by_cases hle : y.totalBuyValue ≤ x.totalBuyValue
    · rw [if_pos hle]
      refine List.pairwise_cons.mpr ⟨?_, List.pairwise_cons.mpr h⟩
      intro z hz
      rcases List.mem_cons.mp hz with rfl | hz'
      · exact hle
      · exact le_trans (h.1 z hz') hle
    · rw [if_neg hle]
      refine List.pairwise_cons.mpr ⟨?_, ih h.2⟩
      intro z hz
      have hz2 : z ∈ x :: ys := (insertDesc_perm x ys).mem_iff.mp hz
      rcases List.mem_cons.mp hz2 with rfl | hz'
      · exact le_of_lt (lt_of_not_le hle)
      · exact h.1 z hz'

lemma sortByValueDesc_pairwise (l : List StockAccumulation) :
    (sortByValueDesc l).Pairwise (fun a b => b.totalBuyValue ≤ a.totalBuyValue) := by
  induction l with
  | nil => simp [sortByValueDesc]
  | cons x xs ih =>
    rw [sortByValueDesc]
    exact insertDesc_pairwise x (sortByValueDesc xs) ih

lemma insertDesc_filter_value (v : ℚ) (x : StockAccumulation) (l : List StockAccumulation) :
    (insertDesc x l).filter (fun e => e.totalBuyValue = v)
      = (x :: l).filter (fun e => e.totalBuyValue = v) := by
  induction l with
  | nil => simp [insertDesc]
  | cons y ys ih =>
    rw [insertDesc]
    by_cases hle : y.totalBuyValue ≤ x.totalBuyValue
    · rw [if_pos hle]
    · rw [if_neg hle]
      have hlt : x.totalBuyValue < y.totalBuyValue := lt_of_not_le hle
      rw [List.filter_cons, ih]
      by_cases hx : x.totalBuyValue = v
      · have hy : ¬(y.totalBuyValue = v) := by
          intro hy
          rw [hx, hy] at hlt
          exact lt_irrefl v hlt
        simp [List.filter_cons, hx, hy]
      · by_cases hy : y.totalBuyValue = v <;> simp [List.filter_cons, hx, hy]

lemma sortByValueDesc_filter_value (v : ℚ) (l : List StockAccumulation) :
    (sortByValueDesc l).filter (fun e => e.totalBuyValue = v)
      = l.filter (fun e => e.totalBuyValue = v) := by
  induction l with
  | nil => simp [sortByValueDesc]
  | cons x xs ih =>
    rw [sortByValueDesc, insertDesc_filter_value]
    simp only [List.filter_cons]
    rw [ih]

/-! ## Lemmas: deal-row acceptance (claim C3) -/

lemma parseNum_pos_iff (s : String) :
    (∃ q : ℚ, parseNumField s = some q ∧ 0 < q) ↔
      (∃ q : ℚ, jsParseFloat (stripCommas s) = some q ∧ 0 < q) := by
  unfold parseNumField
  by_cases h : stripCommas s = ""
  · rw [if_pos h, h]
    have hc : jsParseFloatCore "0" = some (false, ['0'], []) := by decide
    have hd : digitsVal ['0'] = 0 := by decide
    have h0 : jsParseFloat "0" = some 0 := by
      unfold jsParseFloat
      rw [hc]
      simp [hd, digitsVal]
    have hnone : jsParseFloat "" = none := by decide
    constructor
    · rintro ⟨q, hq, hpos⟩
      rw [h0] at hq
      cases Option.some.inj hq
      exact absurd hpos (lt_irrefl 0)
    · rintro ⟨q, hq, -⟩
      rw [hnone] at hq
      exact Option.noConfusion hq
  · rw [if_neg h]

lemma parseDealRow_isSome_iff (dateStr line : String) :
    (parseDealRow dateStr line).isSome = true ↔
      (8 ≤ (parseCSVLine line).length
       ∧ trimString ((parseCSVLine line).getD 1 "") ≠ ""
       ∧ trimString ((parseCSVLine line).getD 2 "") ≠ ""
       ∧ toUpperString (trimString ((parseCSVLine line).getD 3 "")) = "BUY"
       ∧ (∃ q : ℚ, parseNumField ((parseCSVLine line).getD 4 "") = some q ∧ 0 < q)
       ∧ (∃ p : ℚ, parseNumField ((parseCSVLine line).getD 5 "") = some p ∧ 0 < p)) := by
  unfold parseDealRow
  by_cases hlen : (parseCSVLine line).length < 8
  · rw [if_pos hlen]
    simp only [Option.isSome_none, Bool.false_eq_true, false_iff]
    rintro ⟨h8, -⟩
    omega
  · rw [if_neg hlen]
    cases hq : parseNumField ((parseCSVLine line).getD 4 "") with
    | none => simp
    | some q0 =>
      cases hp : parseNumField ((parseCSVLine line).getD 5 "") with
      | none => simp
      | some p0 =>
        by_cases hcond : (trimString ((parseCSVLine line).getD 1 "") ≠ ""
            ∧ trimString ((parseCSVLine line).getD 2 "") ≠ ""
            ∧ 0 < q0 ∧ 0 < p0
            ∧ toUpperString (trimString ((parseCSVLine line).getD 3 "")) = "BUY")
        · have h8 : 8 ≤ (parseCSVLine line).length := by omega
          have hcond' := hcond
          simp only [List.getD_eq_getElem?_getD] at hcond'
          refine iff_of_true ?_ ?_
          · simp [hcond']
          · exact ⟨h8, hcond.1, hcond.2.1, hcond.2.2.2.2,
              ⟨q0, rfl, hcond.2.2.1⟩, ⟨p0, rfl, hcond.2.2.2.1⟩⟩
        · refine iff_of_false ?_ ?_
          · simp
            intro h1 h2 hq3 hp3 hC
            refine hcond ⟨?_, ?_, hq3, hp3, ?_⟩ <;>
              simp only [List.getD_eq_getElem?_getD] <;> assumption
          · rintro ⟨-, h1, h2, h3, ⟨q, hq2, hqpos⟩, ⟨p, hp2, hppos⟩⟩
            cases Option.some.inj hq2
            cases Option.some.inj hp2
            exact hcond ⟨h1, h2, hqpos, hppos, h3⟩

lemma parseDealRow_value (dateStr line : String) (deal : Deal)
    (h : parseDealRow dateStr line = some deal) :
    deal.value = deal.quantity * deal.price := by
  unfold parseDealRow at h
  by_cases hlen : (parseCSVLine line).length < 8
  · rw [if_pos hlen] at h
    exact Option.noConfusion h
  · rw [if_neg hlen] at h
    cases hq : parseNumField ((parseCSVLine line).getD 4 "") with
    | none =>
      rw [hq] at h
      exact Option.noConfusion h
    | some q0 =>
      cases hp : parseNumField ((parseCSVLine line).getD 5 "") with
      | none =>
        rw [hq, hp] at h
        exact Option.noConfusion h
      | some p0 =>
        rw [hq, hp] at h
        replace h : (if (trimString ((parseCSVLine line).getD 1 "") ≠ ""
            ∧ trimString ((parseCSVLine line).getD 2 "") ≠ ""
            ∧ 0 < q0 ∧ 0 < p0
            ∧ toUpperString (trimString ((parseCSVLine line).getD 3 "")) = "BUY")
          then some
            { date := dateStr
              symbol := trimString ((parseCSVLine line).getD 1 "")
              clientName := trimString ((parseCSVLine line).getD 2 "")
              dealType := toUpperString (trimString ((parseCSVLine line).getD 3 ""))
              quantity := q0
              price := p0
              value := q0 * p0 }
          else none) = some deal := h
        by_cases hcond : (trimString ((parseCSVLine line).getD 1 "") ≠ ""
            ∧ trimString ((parseCSVLine line).getD 2 "") ≠ ""
            ∧ 0 < q0 ∧ 0 < p0
            ∧ toUpperString (trimString ((parseCSVLine line).getD 3 "")) = "BUY")
        · rw [if_pos hcond] at h
          rw [← Option.some.inj h]
        · rw [if_neg hcond] at h
          exact Option.noConfusion h

lemma parseBhavCopy_eq (dateStr body : String) :
    parseBhavCopy dateStr body =
      ((((splitNl body.data).map String.mk).filter
          (fun l => !(trimChars l.data).isEmpty)).drop 1).filterMap (parseDealRow dateStr) := by
  unfold parseBhavCopy
  by_cases h : (((splitNl body.data).map String.mk).filter
      (fun l => !(trimChars l.data).isEmpty)).length < 2
  · rw [if_pos h]
    have hnil : ((((splitNl body.data).map String.mk).filter
        (fun l => !(trimChars l.data).isEmpty)).drop 1) = [] := by
      rw [List.drop_eq_nil_iff]
      omega
    rw [hnil]
    rfl
  · rw [if_neg h]

lemma filterMap_skip_row (dateStr : String) (pre post : List String) (bad : String)
    (h : parseDealRow dateStr bad = none) :
    (pre ++ bad :: post).filterMap (parseDealRow dateStr)
      = (pre ++ post).filterMap (parseDealRow dateStr) := by
  rw [List.filterMap_append, List.filterMap_append, List.filterMap_cons_none h]

/-! ## Concrete evaluations used by the spec's examples (claims C1, C2, C9) -/

lemma analyze_example :
    analyzeAccumulation exampleDeals =
      [{ symbol := "TCS", totalBuyQuantity := 150, totalBuyValue := 2000,
         transactions := 2, avgPrice := 40 / 3 }] := by
  have hq1 : qualifies
      { date := "2024-01-01", symbol := "TCS", clientName := "XYZ MUTUAL FUND",
        dealType := "BUY", quantity := 100, price := 10, value := 1000 } = true := by decide
  have hq2 : qualifies
      { date := "2024-01-01", symbol := "TCS", clientName := "ABC INSURANCE",
        dealType := "BUY", quantity := 50, price := 20, value := 1000 } = true := by decide
  have hq3 : qualifies
      { date := "2024-01-01", symbol := "TCS", clientName := "RAJESH KUMAR SHARMA",
        dealType := "BUY", quantity := 10, price := 5, value := 50 } = false := by decide
  unfold analyzeAccumulation exampleDeals
  norm_num [List.filter_cons, hq1, hq2, hq3, accumulate, mapGet, mapSet, addDealData,
    toAccum, sortByValueDesc, insertDesc, StockAccumulation.mk.injEq]

lemma analyze_length_eq (deals : List Deal) :
    (analyzeAccumulation deals).length = min 10 (specSymbols deals).length := by
  unfold analyzeAccumulation
  rw [accumulate_entries_eq]
  rw [List.length_take, (sortByValueDesc_perm _).length_eq, List.length_map]

lemma specSymbols_exDeals2 : specSymbols exDeals2 = ["TCS", "INFY"] := by
  have hq1 : qualifies
      { date := "2024-01-02", symbol := "TCS", clientName := "XYZ MUTUAL FUND",
        dealType := "BUY", quantity := 100, price := 10, value := 1000 } = true := by decide
  have hq2 : qualifies
      { date := "2024-01-02", symbol := "INFY", clientName := "ABC INSURANCE",
        dealType := "BUY", quantity := 50, price := 20, value := 1000 } = true := by decide
  have hq3 : qualifies
      { date := "2024-01-02", symbol := "TCS", clientName := "PQR SECURITIES",
        dealType := "BUY", quantity := 30, price := 10, value := 300 } = true := by decide
  unfold specSymbols exDeals2
  simp [List.filter_cons, hq1, hq2, hq3, firstOccs]

lemma analyze_exDeals2_length : (analyzeAccumulation exDeals2).length = 2 := by
  rw [analyze_length_eq, specSymbols_exDeals2]
  rfl

lemma runLoop_example :
    runLoop exOracle [10, 9] [] =
      [AnalyzeEvent.progress (fetchMsg 10), AnalyzeEvent.progress (fetchMsg 9),
       AnalyzeEvent.progress (analyzeMsg 3), AnalyzeEvent.result (analyzeAccumulation exDeals2)] := by
  have h10 : exOracle (10 : ℤ) = Except.ok exDeals2 := by norm_num [exOracle]
  have h9 : exOracle (9 : ℤ) = Except.ok [] := by norm_num [exOracle]
  rw [runLoop_cons_ok exOracle 10 [9] [] exDeals2 h10]
  rw [runLoop_cons_ok exOracle 9 [] ([] ++ exDeals2) [] h9]
  rw [runLoop_nil]
  simp [exDeals2]

/-! ## The claims -/

/-- C1: for every list of deals, `analyzeAccumulation` returns exactly the
per-symbol accumulations of the BUY deals with institutional
counterparties — summing quantity, value and row count per symbol with
`avgPrice = totalBuyValue / totalBuyQuantity` — sorted descending by
`totalBuyValue`, stable on ties (first-encounter order), truncated to at
most 10 entries. The list the program returns is the 10-entry prefix of a
list `full` that is a permutation of the first-encounter-ordered group
entries, is sorted descending by total buy value, and agrees with the
group entries on every equal-total class (stability). On the spec's
three-deal TCS example it yields the single stated entry with
`avgPrice = 40/3 = 13.33...`. -/
theorem C1_aggregate_ranked_spec :
    analyzeAccumulation exampleDeals =
      [{ symbol := "TCS", totalBuyQuantity := 150, totalBuyValue := 2000,
         transactions := 2, avgPrice := 40 / 3 }]
    ∧ ∀ deals : List Deal, ∃ full : List StockAccumulation,
        analyzeAccumulation deals = full.take 10
        ∧ full.Perm ((specSymbols deals).map (specEntry deals))
        ∧ full.Pairwise (fun a b => b.totalBuyValue ≤ a.totalBuyValue)
        ∧ ∀ v : ℚ, full.filter (fun e => e.totalBuyValue = v)
            = ((specSymbols deals).map (specEntry deals)).filter
                (fun e => e.totalBuyValue = v) := by
  refine ⟨analyze_example, fun deals => ?_⟩
  refine ⟨sortByValueDesc ((specSymbols deals).map (specEntry deals)), ?_,
    sortByValueDesc_perm _, sortByValueDesc_pairwise _,
    fun v => sortByValueDesc_filter_value v _⟩
  unfold analyzeAccumulation
  rw [accumulate_entries_eq]

/-- C2: a run of the orchestrator in which no error escapes the loop
emits exactly one progress event per business day in calendar
(most-recent-first) order, then one progress event with the total
transaction count, then exactly one result event with the aggregated
ranking, and no error event; on the synthetic 2-day example (one empty
day, one day with 3 qualifying rows for 2 symbols) the stream is exactly
3 progress events followed by one result whose data has 2 entries. -/
theorem C2_success_event_stream :
    (∀ (dates : List ℤ) (fetch : ℤ → List Deal),
      runLoop (fun d => Except.ok (fetch d)) dates [] =
        dates.map (fun d => AnalyzeEvent.progress (fetchMsg d))
        ++ [AnalyzeEvent.progress (analyzeMsg (dates.flatMap fetch).length),
            AnalyzeEvent.result (analyzeAccumulation (dates.flatMap fetch))])
    ∧ (∀ (dates : List ℤ) (fetch : ℤ → List Deal),
        (runLoop (fun d => Except.ok (fetch d)) dates []).countP isErrorEv = 0)
    ∧ runLoop exOracle [10, 9] [] =
        [AnalyzeEvent.progress (fetchMsg 10), AnalyzeEvent.progress (fetchMsg 9),
         AnalyzeEvent.progress (analyzeMsg 3),
         AnalyzeEvent.result (analyzeAccumulation exDeals2)]
    ∧ (analyzeAccumulation exDeals2).length = 2
    ∧ (runLoop exOracle [10, 9] []).countP isProgressEv = 3
    ∧ (runLoop exOracle [10, 9] []).countP isResultEv = 1
    ∧ (runLoop exOracle [10, 9] []).countP isErrorEv = 0 := by
  refine ⟨?_, ?_, runLoop_example, analyze_exDeals2_length, ?_, ?_, ?_⟩
  · intro dates fetch
    simpa using runLoop_ok_spec fetch dates []
  · intro dates fetch
    rw [runLoop_ok_spec fetch dates []]
    simp [List.countP_append, List.countP_cons, List.countP_map, isErrorEv]
  · rw [runLoop_example]
    simp [List.countP_cons, isProgressEv]
  · rw [runLoop_example]
    simp [List.countP_cons, isProgressEv, isResultEv]
  · rw [runLoop_example]
    simp [List.countP_cons, isProgressEv, isErrorEv]

/-- C3: a data row of a fetched body becomes a `Deal` if and only if the
parsed line has at least 8 fields, the trimmed symbol and
counterparty-name fields are non-empty, the trimmed upper-cased deal-type
field equals "BUY", and the quantity and price fields, parsed as numbers
after stripping commas, are both strictly positive; every produced deal
has `value = quantity * price`; the body is processed row by row
(header dropped, blank lines removed), and rows on which the row parser
yields nothing are skipped without affecting the other rows. -/
theorem C3_deal_row_acceptance : ∀ (dateStr line : String),
    ((parseDealRow dateStr line).isSome = true ↔
      (8 ≤ (parseCSVLine line).length
       ∧ trimString ((parseCSVLine line).getD 1 "") ≠ ""
       ∧ trimString ((parseCSVLine line).getD 2 "") ≠ ""
       ∧ toUpperString (trimString ((parseCSVLine line).getD 3 "")) = "BUY"
       ∧ (∃ q : ℚ, jsParseFloat (stripCommas ((parseCSVLine line).getD 4 "")) = some q ∧ 0 < q)
       ∧ (∃ p : ℚ, jsParseFloat (stripCommas ((parseCSVLine line).getD 5 "")) = some p ∧ 0 < p)))
    ∧ (∀ deal : Deal, parseDealRow dateStr line = some deal →
        deal.value = deal.quantity * deal.price)
    ∧ (∀ body : String, parseBhavCopy dateStr body =
        ((((splitNl body.data).map String.mk).filter
            (fun l => !(trimChars l.data).isEmpty)).drop 1).filterMap (parseDealRow dateStr))
    ∧ (∀ (pre post : List String) (bad : String), parseDealRow dateStr bad = none →
        (pre ++ bad :: post).filterMap (parseDealRow dateStr)
          = (pre ++ post).filterMap (parseDealRow dateStr)) := by
  intro dateStr line
  refine ⟨?_, fun deal => parseDealRow_value dateStr line deal,
    fun body => parseBhavCopy_eq dateStr body,
    fun pre post bad => filterMap_skip_row dateStr pre post bad⟩
  rw [parseDealRow_isSome_iff]
  simp only [parseNum_pos_iff]

/-- C4: every run of the orchestrator emits at most one result event and
at most one error event, and never both: either the stream carries
exactly one result and no error, or (when an error escapes the loop)
exactly one error, no result — not even partial — and the error event is
the last event of the stream. -/
theorem C4_single_terminal_event : ∀ (dates : List ℤ)
    (fetch : ℤ → Except String (List Deal)),
    ((runLoop fetch dates []).countP isErrorEv = 0
      ∧ (runLoop fetch dates []).countP isResultEv = 1
      ∧ (∃ r, (runLoop fetch dates []).getLast? = some (AnalyzeEvent.result r)))
    ∨ ((runLoop fetch dates []).countP isErrorEv = 1
      ∧ (runLoop fetch dates []).countP isResultEv = 0
      ∧ (∃ e, (runLoop fetch dates []).getLast? = some (AnalyzeEvent.error e))) :=
  fun dates fetch => runLoop_one_terminal fetch dates []

/-- C5: for every n ≥ 1 the calendar terminates (the fuelled loop never
exhausts its fuel) and returns exactly n strictly-decreasing dates, most
recent first, none on Saturday or Sunday, obtained by walking backward
one calendar day at a time from the reference date — adjacent results
differ only by skipped weekend days — and including the reference date
itself when it is a business day. -/
theorem C5_business_day_calendar : ∀ (n : ℕ) (today : ℤ), 1 ≤ n →
    (getLastNBusinessDays n today).length = n
    ∧ List.Pairwise (fun a b => b < a) (getLastNBusinessDays n today)
    ∧ (∀ d ∈ getLastNBusinessDays n today, isWeekend d = false ∧ d ≤ today)
    ∧ List.Chain' (fun a b => b < a ∧ ∀ x : ℤ, b < x → x < a → isWeekend x = true)
        (getLastNBusinessDays n today)
    ∧ (isWeekend today = false → (getLastNBusinessDays n today).head? = some today) := by
  intro n today hn
  refine ⟨?_, bizLoop_pairwise _ _ _, fun d hd => bizLoop_mem _ _ _ d hd,
    bizLoop_chain _ _ _, ?_⟩
  · apply bizLoop_length
    have := wkDebt_le_two today
    omega
  · intro hw
    obtain ⟨m, rfl⟩ : ∃ m, n = m + 1 := ⟨n - 1, by omega⟩
    show (bizLoop (3 * (m + 1) + 2) (m + 1) today).head? = some today
    rw [show 3 * (m + 1) + 2 = (3 * m + 4) + 1 from by ring]
    rw [bizLoop_business (3 * m + 4) m today hw]
    rfl

/-- C5 witness: the calendar evaluated at n = 3 from reference day 2
(a Tuesday in the model's weekday convention). -/
theorem C5_business_day_calendar_witness :
    (getLastNBusinessDays 3 2).length = 3
    ∧ List.Pairwise (fun a b => b < a) (getLastNBusinessDays 3 2)
    ∧ (∀ d ∈ getLastNBusinessDays 3 2, isWeekend d = false ∧ d ≤ 2)
    ∧ List.Chain' (fun a b => b < a ∧ ∀ x : ℤ, b < x → x < a → isWeekend x = true)
        (getLastNBusinessDays 3 2)
    ∧ (getLastNBusinessDays 3 2).head? = some 2 := by
  have h := C5_business_day_calendar 3 2 (by decide)
  exact ⟨h.1, h.2.1, h.2.2.1, h.2.2.2.1, h.2.2.2.2 (by decide)⟩

/-- C6: the row parser splits on commas only outside quoted spans, treats
each quote character as toggling the in-quotes mode without emitting it,
and trims every resulting field — stated as equality with the
declarative description `splitFieldsSpec` — and on the example line
`a,"b,c",d` it yields `["a", "b,c", "d"]`. -/
theorem C6_row_parser_quoted_split :
    parseCSVLine "a,\"b,c\",d" = ["a", "b,c", "d"]
    ∧ ∀ line : String, parseCSVLine line = splitFieldsSpec line :=
  ⟨by decide, parseCSVLine_eq_spec⟩

/-- C7: the fetcher never throws — it is a total function of the fetch
outcome — and it returns the empty list when the response status is not
ok, when a network or parse-level exception was caught, or when the body
has fewer than two non-blank lines. -/
theorem C7_fetcher_never_throws : ∀ (dateStr msg body : String),
    downloadBhavCopy (FetchOutcome.networkError msg) dateStr = []
    ∧ downloadBhavCopy (FetchOutcome.success false body) dateStr = []
    ∧ ((((splitNl body.data).map String.mk).filter
          (fun l => !(trimChars l.data).isEmpty)).length < 2 →
        downloadBhavCopy (FetchOutcome.success true body) dateStr = []) := by
  intro dateStr msg body
  refine ⟨rfl, rfl, fun h => ?_⟩
  show parseBhavCopy dateStr body = []
  unfold parseBhavCopy
  rw [if_pos h]

/-- C8: `isInstitutional` returns true exactly when the upper-cased name
contains one of the fixed keywords as a substring (not whole-word), and
the spec's three examples evaluate as stated. -/
theorem C8_institutional_classifier :
    isInstitutional "XYZ MUTUAL FUND" = true
    ∧ isInstitutional "RAJESH KUMAR SHARMA" = false
    ∧ isInstitutional "abc bank ltd" = true
    ∧ ∀ name : String, (isInstitutional name = true ↔
        ∃ k ∈ INSTITUTIONAL_KEYWORDS, k.data <:+: (toUpperString name).data) := by
  refine ⟨by decide, by decide, by decide, fun name => ?_⟩
  simp [isInstitutional, List.any_eq_true, containsSeq_iff]

/-- C9: when every input deal has strictly positive quantity, every entry
the aggregator returns has strictly positive (hence non-zero)
totalBuyQuantity, so the average-price division has a non-zero
denominator; only symbols with at least one qualifying deal appear. -/
theorem C9_positive_total_quantity : ∀ deals : List Deal,
    (∀ d ∈ deals, 0 < d.quantity) →
    ∀ e ∈ analyzeAccumulation deals,
      0 < e.totalBuyQuantity ∧ e.totalBuyQuantity ≠ 0
        ∧ e.avgPrice = e.totalBuyValue / e.totalBuyQuantity := by
  intro deals hpos e he
  unfold analyzeAccumulation at he
  have he2 := List.take_subset _ _ he
  rw [accumulate_entries_eq] at he2
  have he3 : e ∈ (specSymbols deals).map (specEntry deals) :=
    (sortByValueDesc_perm _).mem_iff.mp he2
  obtain ⟨s, hs, rfl⟩ := List.mem_map.mp he3
  have hs2 : s ∈ (deals.filter qualifies).map Deal.symbol := firstOccs_mem _ s hs
  obtain ⟨d0, hd0, hd0s⟩ := List.mem_map.mp hs2
  have hmem : d0 ∈ (deals.filter qualifies).filter (fun d => d.symbol = s) :=
    List.mem_filter.mpr ⟨hd0, by simp [hd0s]⟩
  have hne : ((deals.filter qualifies).filter (fun d => d.symbol = s)).map Deal.quantity
      ≠ [] := by
    intro hnil
    exact List.ne_nil_of_mem hmem (List.map_eq_nil_iff.mp hnil)
  have hall : ∀ q ∈ ((deals.filter qualifies).filter
      (fun d => d.symbol = s)).map Deal.quantity, 0 < q := by
    intro q hqm
    obtain ⟨d1, hd1, rfl⟩ := List.mem_map.mp hqm
    exact hpos d1 (List.mem_of_mem_filter (List.mem_of_mem_filter hd1))
  have hsum : 0 < (((deals.filter qualifies).filter
      (fun d => d.symbol = s)).map Deal.quantity).sum := List.sum_pos _ hall hne
  exact ⟨hsum, ne_of_gt hsum, rfl⟩

/-- C9 witness: the positivity hypothesis and the membership are
discharged on the spec's three-deal example, whose single output entry
has totalBuyQuantity 150. -/
theorem C9_positive_total_quantity_witness :
    0 < exampleEntry.totalBuyQuantity
    ∧ exampleEntry.totalBuyQuantity ≠ 0
    ∧ exampleEntry.avgPrice = exampleEntry.totalBuyValue / exampleEntry.totalBuyQuantity :=
  C9_positive_total_quantity exampleDeals (by decide) exampleEntry
    (by rw [analyze_example]; exact List.mem_singleton.mpr rfl)

/-- C10: the ranked list returned by the aggregator has pairwise-distinct
stock symbols, because grouping goes through a map keyed by symbol. -/
theorem C10_distinct_symbols : ∀ deals : List Deal,
    ((analyzeAccumulation deals).map (fun e => e.symbol)).Nodup := by
  intro deals
  have h1 : ((sortByValueDesc ((specSymbols deals).map (specEntry deals))).map
      (fun e => e.symbol)).Nodup := by
    have hperm := (sortByValueDesc_perm ((specSymbols deals).map (specEntry deals))).map
      (fun e => e.symbol)
    rw [hperm.nodup_iff, List.map_map]
    rw [show ((fun e => StockAccumulation.symbol e) ∘ specEntry deals) = id from
      funext (fun s => rfl), List.map_id]
    exact firstOccs_nodup _
  unfold analyzeAccumulation
  rw [accumulate_entries_eq]
  exact h1.sublist ((List.take_sublist _ _).map _)
